import Mathlib

/-!
Verification of the `workerpool` package of carwale/golibraries.

The embedding follows the source in `workerpool` (Worker, Dispatcher,
trackWorkers, NewDispatcher and its options).  Channels are modelled by
lists, goroutine interleavings by an explicit step relation, and the
tracker goroutine — a purely sequential consumer of two channels — by a
fold over the stream of events it receives.
-/

namespace Workerpool

/-! ## The utilization tracker (`Dispatcher.trackWorkers`)

The tracker goroutine selects between the reset channel and the
worker-tracker (utilization sample) channel.  Since it is a single
sequential loop, its behaviour is the fold of a step function over the
sequence of events it receives.  Besides `maxUsedWorkers` we record the
calls it makes to the metrics sink (`latencyLogger.SetVal`) and the
debug-level log lines it emits, so that statements about side effects
can be made. -/

/-- The metric identifier used for the max-workers gauge
(`maxWorkerGaugeMetricID = "MAX-WORKERS"` in the source). -/
def maxWorkerGaugeMetricID : String := "MAX-WORKERS"

/-- One call to the metrics sink operation
`latencyLogger.SetVal(value, metricID, label)`. -/
structure SinkCall where
  value : Int
  metricID : String
  label : String
deriving DecidableEq, Repr

/-- An event consumed by the tracker goroutine: either a signal on
`resetMaxWorkerCount` or an integer sample on `workerTracker`. -/
inductive TrackerEvent where
  | reset : TrackerEvent
  | sample (numWorkers : Int) : TrackerEvent
deriving DecidableEq, Repr

/-- The state owned by the tracker goroutine: the `maxUsedWorkers`
counter together with the trace of sink calls and debug logs it has
produced so far. -/
structure TrackerState where
  maxUsedWorkers : Int
  calls : List SinkCall
  debugLogs : List String
deriving DecidableEq, Repr

/-- One iteration of the `select` loop in `Dispatcher.trackWorkers`:
on a reset signal it logs and zeroes `maxUsedWorkers`; on a sample it
updates the max, logs, and calls `SetVal` exactly when the sample is
strictly greater than the current max. -/
def trackWorkersStep (name : String) (st : TrackerState) : TrackerEvent → TrackerState
  | TrackerEvent.reset =>
      { maxUsedWorkers := 0
        calls := st.calls
        debugLogs := st.debugLogs ++ ["setting max workers to zero"] }
  | TrackerEvent.sample numWorkers =>
      if numWorkers > st.maxUsedWorkers then
        { maxUsedWorkers := numWorkers
          calls := st.calls ++ [⟨numWorkers, maxWorkerGaugeMetricID, name⟩]
          debugLogs := st.debugLogs ++ ["setting max workers to " ++ toString numWorkers] }
      else st

/-- The tracker goroutine run over a finite sequence of events. -/
def trackWorkersRun (name : String) (st : TrackerState) (evs : List TrackerEvent) : TrackerState :=
  evs.foldl (trackWorkersStep name) st

/-- The tracker state at startup of the dispatcher. -/
def trackerInit : TrackerState := ⟨0, [], []⟩

theorem trackWorkersStep_max_mono (name : String) (st : TrackerState) (e : TrackerEvent)
    (he : e ≠ TrackerEvent.reset) :
    st.maxUsedWorkers ≤ (trackWorkersStep name st e).maxUsedWorkers := by
  cases e with
  | reset => exact absurd rfl he
  | sample n =>
      simp only [trackWorkersStep]
      split
      · next h => exact le_of_lt h
      · exact le_refl _

theorem trackWorkersRun_max_mono (name : String) (evs : List TrackerEvent)
    (he : ∀ e ∈ evs, e ≠ TrackerEvent.reset) :
    ∀ st : TrackerState, st.maxUsedWorkers ≤ (trackWorkersRun name st evs).maxUsedWorkers := by
  induction evs with
  | nil => intro st; exact le_refl _
  | cons e rest ih =>
      intro st
      have h1 : st.maxUsedWorkers ≤ (trackWorkersStep name st e).maxUsedWorkers :=
        trackWorkersStep_max_mono name st e (he e (List.mem_cons_self e rest))
      have h2 := ih (fun x hx => he x (List.mem_cons_of_mem e hx)) (trackWorkersStep name st e)
      exact le_trans h1 h2

/-- On a sample event, the new max is the binary max of the old max and
the sample. -/
theorem trackWorkersStep_sample_max (name : String) (st : TrackerState) (n : Int) :
    (trackWorkersStep name st (TrackerEvent.sample n)).maxUsedWorkers =
      max st.maxUsedWorkers n := by
  simp only [trackWorkersStep]
  split
  · next h =>
      simp only []
      exact (max_eq_right (le_of_lt h)).symm
  · next h =>
      exact (max_eq_left (not_lt.mp h)).symm

/-- Running the tracker over a list of sample events folds `max` over
the samples. -/
theorem trackWorkersRun_samples_max (name : String) (s : List Int) :
    ∀ st : TrackerState,
      (trackWorkersRun name st (s.map TrackerEvent.sample)).maxUsedWorkers =
        s.foldl max st.maxUsedWorkers := by
  induction s with
  | nil => intro st; rfl
  | cons n rest ih =>
      intro st
      simp only [List.map_cons, trackWorkersRun, List.foldl_cons]
      have := ih (trackWorkersStep name st (TrackerEvent.sample n))
      simp only [trackWorkersRun] at this
      rw [this, trackWorkersStep_sample_max]

/-- C2: Between resets the tracked max is monotonically non-decreasing:
a single non-reset event never decreases `maxUsedWorkers`, and over any
sequence of events containing no reset the final `maxUsedWorkers` is at
least the initial one; only the reset event sets it to zero
(`trackWorkersStep` on `reset` yields `0` regardless of the state). -/
theorem maxUsedWorkers_monotone_between_resets (name : String) (st : TrackerState)
    (evs : List TrackerEvent) (he : ∀ e ∈ evs, e ≠ TrackerEvent.reset) :
    st.maxUsedWorkers ≤ (trackWorkersRun name st evs).maxUsedWorkers ∧
    (∀ e, e ≠ TrackerEvent.reset →
      st.maxUsedWorkers ≤ (trackWorkersStep name st e).maxUsedWorkers) ∧
    (trackWorkersStep name st TrackerEvent.reset).maxUsedWorkers = 0 := by
  refine ⟨trackWorkersRun_max_mono name evs he st, ?_, rfl⟩
  intro e hne
  exact trackWorkersStep_max_mono name st e hne

/-- Witness for `maxUsedWorkers_monotone_between_resets` at a concrete
state and sample sequence. -/
theorem maxUsedWorkers_monotone_between_resets_witness :
    trackerInit.maxUsedWorkers ≤
      (trackWorkersRun "d" trackerInit
        [TrackerEvent.sample 1, TrackerEvent.sample 3, TrackerEvent.sample 2]).maxUsedWorkers :=
  (maxUsedWorkers_monotone_between_resets "d" trackerInit
    [TrackerEvent.sample 1, TrackerEvent.sample 3, TrackerEvent.sample 2]
    (by intro e he; fin_cases he <;> simp)).1

/-- C4: On a reset signal the tracker zeroes the counter and logs at
debug level, and the max after a run `s1 ++ [reset] ++ s2` is exactly
the fold of `max` over `s2` starting from `0` — the samples of `s1` are
forgotten.  In particular samples `[3]`, reset, samples `[1]` leaves the
max at `1`, not `3`. -/
theorem reset_forgets_earlier_samples (name : String) (st : TrackerState)
    (s1 s2 : List Int) :
    (trackWorkersStep name st TrackerEvent.reset).maxUsedWorkers = 0 ∧
    (trackWorkersStep name st TrackerEvent.reset).debugLogs =
      st.debugLogs ++ ["setting max workers to zero"] ∧
    (trackWorkersRun name st
        (s1.map TrackerEvent.sample ++ TrackerEvent.reset :: s2.map TrackerEvent.sample)).maxUsedWorkers
      = s2.foldl max 0 ∧
    (trackWorkersRun name st
        [TrackerEvent.sample 3, TrackerEvent.reset, TrackerEvent.sample 1]).maxUsedWorkers = 1 := by
  refine ⟨rfl, rfl, ?_, ?_⟩
  · simp only [trackWorkersRun, List.foldl_append, List.foldl_cons]
    have h := trackWorkersRun_samples_max name s2
      (trackWorkersStep name (trackWorkersRun name st (s1.map TrackerEvent.sample)) TrackerEvent.reset)
    simp only [trackWorkersRun] at h
    rw [h]
    rfl
  · have h3 : trackWorkersRun name st
        [TrackerEvent.sample 3, TrackerEvent.reset, TrackerEvent.sample 1]
        = trackWorkersRun name st
            ([3].map TrackerEvent.sample ++ TrackerEvent.reset :: [1].map TrackerEvent.sample) := rfl
    rw [h3]
    simp only [trackWorkersRun, List.foldl_append, List.foldl_cons]
    have h := trackWorkersRun_samples_max name [1]
      (trackWorkersStep name (trackWorkersRun name st ([3].map TrackerEvent.sample)) TrackerEvent.reset)
    simp only [trackWorkersRun] at h
    rw [h]
    rfl

/-- C5: For every utilization sample, the sink call trace grows — i.e.
`SetVal` is invoked — exactly when the sample is strictly greater than
the current max; in that case the call carries the new max as value,
metric id `"MAX-WORKERS"` and the dispatcher name as label, and the new
max is the sample itself; otherwise the state is completely unchanged. -/
theorem setval_called_iff_new_max (name : String) (st : TrackerState) (n : Int) :
    ((trackWorkersStep name st (TrackerEvent.sample n)).calls ≠ st.calls ↔
      st.maxUsedWorkers < n) ∧
    (st.maxUsedWorkers < n →
      (trackWorkersStep name st (TrackerEvent.sample n)).calls =
        st.calls ++ [⟨n, maxWorkerGaugeMetricID, name⟩] ∧
      (trackWorkersStep name st (TrackerEvent.sample n)).maxUsedWorkers = n) ∧
    (n ≤ st.maxUsedWorkers → trackWorkersStep name st (TrackerEvent.sample n) = st) := by
  refine ⟨⟨?_, ?_⟩, ?_, ?_⟩
  · intro hne
    by_contra hle
    apply hne
    simp only [trackWorkersStep]
    rw [if_neg hle]
  · intro hlt
    simp only [trackWorkersStep]
    rw [if_pos hlt]
    simp
  · intro hlt
    simp only [trackWorkersStep]
    rw [if_pos hlt]
    exact ⟨rfl, rfl⟩
  · intro hle
    simp only [trackWorkersStep]
    rw [if_neg (not_lt.mpr hle)]

/-- Witness for `setval_called_iff_new_max`: from max 0, sample 2
triggers a sink call with value 2. -/
theorem setval_called_iff_new_max_witness :
    (trackWorkersStep "d" trackerInit (TrackerEvent.sample 2)).calls =
      trackerInit.calls ++ [⟨2, maxWorkerGaugeMetricID, "d"⟩] ∧
    (trackWorkersStep "d" trackerInit (TrackerEvent.sample 2)).maxUsedWorkers = 2 :=
  (setval_called_iff_new_max "d" trackerInit 2).2.1 (by decide)

/-! ## Dispatcher construction (`NewDispatcher` and its options)

A Go channel is modelled by its buffer capacity; the option functions
mutate a `Dispatcher` record exactly as in the source, and
`newDispatcher` applies the options to the default record, then creates
the job queue (buffered to `maxWorkers`) when none was supplied, fills
in the default loggers, and creates the worker pool channel. -/

/-- A Go channel, modelled by its buffer capacity. -/
structure GoChan where
  capacity : Int
deriving DecidableEq, Repr

/-- The configuration part of the `Dispatcher` struct that construction
touches.  The logger fields only record whether a caller-supplied value
is present (`true`) or the default is used (`false`). -/
structure DispatcherCfg where
  name : String
  maxWorkers : Int
  hasCustomNewWorker : Bool
  jobQueue : Option GoChan
  hasCustomLogger : Bool
  hasCustomLatencyLogger : Bool
  workerPool : Option GoChan
deriving DecidableEq, Repr

/-- The options accepted by `NewDispatcher`. -/
inductive DispatcherOption where
  | setMaxWorkers (maxWorkers : Int) : DispatcherOption
  | setNewWorker : DispatcherOption
  | setLogger : DispatcherOption
  | setLatencyLogger : DispatcherOption
  | setJobQueue (jobQueue : GoChan) : DispatcherOption
deriving DecidableEq, Repr

/-- Application of one option to the dispatcher under construction.
`SetMaxWorkers` only takes effect for a strictly positive argument. -/
def applyOption (d : DispatcherCfg) : DispatcherOption → DispatcherCfg
  | DispatcherOption.setMaxWorkers m =>
      if m > 0 then { d with maxWorkers := m } else d
  | DispatcherOption.setNewWorker => { d with hasCustomNewWorker := true }
  | DispatcherOption.setLogger => { d with hasCustomLogger := true }
  | DispatcherOption.setLatencyLogger => { d with hasCustomLatencyLogger := true }
  | DispatcherOption.setJobQueue q => { d with jobQueue := some q }

/-- The dispatcher record as initialised at the top of `NewDispatcher`,
before options are applied: 10 workers, the default worker factory, no
job queue yet. -/
def defaultDispatcherCfg (dispatcherName : String) : DispatcherCfg :=
  { name := dispatcherName
    maxWorkers := 10
    hasCustomNewWorker := false
    jobQueue := none
    hasCustomLogger := false
    hasCustomLatencyLogger := false
    workerPool := none }

/-- `NewDispatcher`: apply the options in order, create the job queue
buffered to `maxWorkers` when none was supplied, and create the worker
pool channel with capacity `maxWorkers`. -/
def newDispatcher (dispatcherName : String) (options : List DispatcherOption) : DispatcherCfg :=
  let d := options.foldl applyOption (defaultDispatcherCfg dispatcherName)
  let d := if d.jobQueue = none then { d with jobQueue := some ⟨d.maxWorkers⟩ } else d
  { d with workerPool := some ⟨d.maxWorkers⟩ }

theorem foldl_applyOption_jobQueue_none (options : List DispatcherOption)
    (hno : ∀ q, DispatcherOption.setJobQueue q ∉ options) :
    ∀ d : DispatcherCfg, d.jobQueue = none →
      (options.foldl applyOption d).jobQueue = none := by
  induction options with
  | nil => intro d hd; exact hd
  | cons o rest ih =>
      intro d hd
      have hrest : ∀ q, DispatcherOption.setJobQueue q ∉ rest := by
        intro q hq
        exact hno q (List.mem_cons_of_mem o hq)
      refine ih hrest (applyOption d o) ?_
      cases o with
      | setMaxWorkers m =>
          simp only [applyOption]
          split <;> exact hd
      | setNewWorker => exact hd
      | setLogger => exact hd
      | setLatencyLogger => exact hd
      | setJobQueue q => exact absurd (List.mem_cons_self _ rest) (hno q)

/-- C7: When no `SetJobQueue` option is supplied, `NewDispatcher`
creates the job queue itself as a channel buffered to the configured
worker count. -/
theorem jobQueue_default_buffered_to_maxWorkers (dispatcherName : String)
    (options : List DispatcherOption)
    (hno : ∀ q, DispatcherOption.setJobQueue q ∉ options) :
    (newDispatcher dispatcherName options).jobQueue =
      some ⟨(newDispatcher dispatcherName options).maxWorkers⟩ := by
  have hnone : (options.foldl applyOption (defaultDispatcherCfg dispatcherName)).jobQueue = none :=
    foldl_applyOption_jobQueue_none options hno _ rfl
  simp only [newDispatcher]
  rw [if_pos hnone]

/-- Witness for `jobQueue_default_buffered_to_maxWorkers`: with only
`SetMaxWorkers 4` supplied, the queue is created with capacity 4. -/
theorem jobQueue_default_buffered_to_maxWorkers_witness :
    (newDispatcher "d" [DispatcherOption.setMaxWorkers 4]).jobQueue =
      some ⟨(newDispatcher "d" [DispatcherOption.setMaxWorkers 4]).maxWorkers⟩ :=
  jobQueue_default_buffered_to_maxWorkers "d" [DispatcherOption.setMaxWorkers 4]
    (by intro q hq; simp at hq)

/-- C8: A non-positive `SetMaxWorkers` argument is silently ignored:
construction succeeds (the model is a total function) and the worker
count stays at the default of 10. -/
theorem setMaxWorkers_nonpositive_keeps_default (dispatcherName : String) (m : Int)
    (hm : m ≤ 0) :
    (newDispatcher dispatcherName [DispatcherOption.setMaxWorkers m]).maxWorkers = 10 := by
  simp only [newDispatcher, List.foldl_cons, List.foldl_nil, applyOption]
  rw [if_neg (not_lt.mpr hm)]
  split <;> rfl

/-- Witness for `setMaxWorkers_nonpositive_keeps_default` at `m = 0`
and `m = -3`. -/
theorem setMaxWorkers_nonpositive_keeps_default_witness :
    (newDispatcher "d" [DispatcherOption.setMaxWorkers 0]).maxWorkers = 10 ∧
    (newDispatcher "d" [DispatcherOption.setMaxWorkers (-3)]).maxWorkers = 10 :=
  ⟨setMaxWorkers_nonpositive_keeps_default "d" 0 (by decide),
   setMaxWorkers_nonpositive_keeps_default "d" (-3) (by decide)⟩

/-! ## The package-level `dispatcherSync` once-guard (C10)

`NewDispatcher` registers the `"MAX-WORKERS"` gauge metric on the
dispatcher's latency logger inside `dispatcherSync.Do`, a package-level
`sync.Once`.  We model the once-state threaded through successive
constructions; latency loggers are identified by a number and
`addCalls` records every `AddNewMetric(metricID, ...)` invocation with
the sink it was made on. -/

/-- The package-level state relevant to metric registration: whether
`dispatcherSync.Do` has already run, and the `AddNewMetric` calls made
so far, as pairs (latency-logger id, metric id). -/
structure MetricsRegState where
  onceDone : Bool
  addCalls : List (Nat × String)
deriving DecidableEq, Repr

/-- The effect of one `NewDispatcher` call on the package-level
registration state: inside `dispatcherSync.Do`, register the
max-workers gauge on this dispatcher's latency logger — a no-op if the
once-guard already fired. -/
def registerMaxWorkerGauge (sink : Nat) (g : MetricsRegState) : MetricsRegState :=
  if g.onceDone then g
  else { onceDone := true, addCalls := g.addCalls ++ [(sink, maxWorkerGaugeMetricID)] }

/-- The registration state after a sequence of `NewDispatcher` calls
whose latency loggers are `sinks`, starting from a fresh process. -/
def constructDispatchers (sinks : List Nat) : MetricsRegState :=
  sinks.foldl (fun g s => registerMaxWorkerGauge s g) ⟨false, []⟩

theorem registerMaxWorkerGauge_done (sinks : List Nat) :
    ∀ g : MetricsRegState, g.onceDone = true →
      sinks.foldl (fun g s => registerMaxWorkerGauge s g) g = g := by
  induction sinks with
  | nil => intro g _; rfl
  | cons s rest ih =>
      intro g hg
      simp only [List.foldl_cons]
      rw [show registerMaxWorkerGauge s g = g from by simp [registerMaxWorkerGauge, hg]]
      exact ih g hg

/-- C10: Across all `NewDispatcher` calls in one process, the
`"MAX-WORKERS"` gauge is registered at most once: only the first call
performs `AddNewMetric`, on its own latency logger, and a later
dispatcher constructed with a different latency logger never gets any
metric registered on its sink. -/
theorem gauge_registered_at_most_once (sinks : List Nat) :
    (constructDispatchers sinks).addCalls.length ≤ 1 ∧
    (∀ s1 rest, sinks = s1 :: rest →
      (constructDispatchers sinks).addCalls = [(s1, maxWorkerGaugeMetricID)]) ∧
    (∀ s1 rest, sinks = s1 :: rest → ∀ s ∈ rest, s ≠ s1 →
      ∀ m : String, (s, m) ∉ (constructDispatchers sinks).addCalls) := by
  have hkey : ∀ s1 rest, sinks = s1 :: rest →
      (constructDispatchers sinks).addCalls = [(s1, maxWorkerGaugeMetricID)] := by
    intro s1 rest hs
    subst hs
    simp only [constructDispatchers, List.foldl_cons]
    rw [show registerMaxWorkerGauge s1 ⟨false, []⟩
          = ⟨true, [(s1, maxWorkerGaugeMetricID)]⟩ from rfl]
    rw [registerMaxWorkerGauge_done rest ⟨true, [(s1, maxWorkerGaugeMetricID)]⟩ rfl]
  refine ⟨?_, hkey, ?_⟩
  · cases sinks with
    | nil => simp [constructDispatchers]
    | cons s1 rest =>
        rw [hkey s1 rest rfl]
        simp
  · intro s1 rest hs s _ hne m hmem
    rw [hkey s1 rest hs] at hmem
    simp only [List.mem_singleton, Prod.mk.injEq] at hmem
    exact hne hmem.1

/-- Witness for `gauge_registered_at_most_once`: two dispatchers with
latency loggers 1 and 2 — only sink 1 gets the gauge. -/
theorem gauge_registered_at_most_once_witness :
    (constructDispatchers [1, 2]).addCalls = [(1, maxWorkerGaugeMetricID)] ∧
    ((2 : Nat), maxWorkerGaugeMetricID) ∉ (constructDispatchers [1, 2]).addCalls :=
  ⟨(gauge_registered_at_most_once [1, 2]).2.1 1 [2] rfl,
   (gauge_registered_at_most_once [1, 2]).2.2 1 [2] rfl 2 (by decide) (by decide)
     maxWorkerGaugeMetricID⟩

/-! ## The dispatcher / worker-pool transition system

`Dispatcher.run` spawns `maxWorkers` copies of the `Worker.Start` loop
and one `dispatch` loop.  We model the interleaved execution as a step
relation on a global state: the buffered channels `JobQueue`,
`workerPool` and `workerTracker` are lists, each worker goroutine is a
phase, and the single dispatch goroutine is a phase recording where it
stands inside one iteration of `for job := range d.JobQueue`.  Jobs are
identified by natural numbers.  The traces `handedOff` (completed
`jobChannel <- job` sends) and `processed` (completed `job.Process()`
calls) record the observable history. -/

/-- The phase of one `Worker.Start` goroutine: about to send its job
channel into the pool, blocked in the `select`, or inside
`job.Process()`. -/
inductive WPhase where
  | toRegister : WPhase
  | selecting : WPhase
  | processing (job : Nat) : WPhase
deriving DecidableEq, Repr

/-- The phase of the `dispatch` goroutine inside one loop iteration:
waiting on the job queue; holding a job and waiting on the worker pool;
having popped worker `w`; having also sent the utilization sample. -/
inductive DPhase where
  | idle : DPhase
  | haveJob (job : Nat) : DPhase
  | popped (job : Nat) (w : Nat) : DPhase
  | sampled (job : Nat) (w : Nat) : DPhase
deriving DecidableEq, Repr

/-- Global state of the dispatcher system. -/
structure PoolSys where
  maxWorkers : Nat
  jobQueue : List Nat
  pool : List Nat
  workers : List WPhase
  disp : DPhase
  samples : List Int
  handedOff : List Nat
  processed : List Nat
deriving DecidableEq, Repr

/-- One interleaving step of the system: a worker registering into the
pool (`w.WorkerPool <- w.JobChannel`), the dispatch loop pulling a job,
popping an idle worker channel, sending the utilization sample
(`maxWorkers - len(workerPool)`), handing the job over
(`jobChannel <- job`, which synchronises with the worker's `select`),
or a worker finishing `job.Process()` and looping around. -/
inductive Step : PoolSys → PoolSys → Prop where
  | register (s : PoolSys) (w : Nat)
      (hw : s.workers[w]? = some WPhase.toRegister)
      (hcap : s.pool.length < s.maxWorkers) :
      Step s { s with pool := s.pool ++ [w], workers := s.workers.set w WPhase.selecting }
  | takeJob (s : PoolSys) (j : Nat) (rest : List Nat)
      (hd : s.disp = DPhase.idle) (hq : s.jobQueue = j :: rest) :
      Step s { s with disp := DPhase.haveJob j, jobQueue := rest }
  | popWorker (s : PoolSys) (j w : Nat) (rest : List Nat)
      (hd : s.disp = DPhase.haveJob j) (hp : s.pool = w :: rest) :
      Step s { s with disp := DPhase.popped j w, pool := rest }
  | sendSample (s : PoolSys) (j w : Nat)
      (hd : s.disp = DPhase.popped j w) :
      Step s { s with disp := DPhase.sampled j w,
                      samples := s.samples ++ [(s.maxWorkers : Int) - (s.pool.length : Int)] }
  | handOff (s : PoolSys) (j w : Nat)
      (hd : s.disp = DPhase.sampled j w)
      (hw : s.workers[w]? = some WPhase.selecting) :
      Step s { s with disp := DPhase.idle,
                      workers := s.workers.set w (WPhase.processing j),
                      handedOff := s.handedOff ++ [j] }
  | finish (s : PoolSys) (w j : Nat)
      (hw : s.workers[w]? = some (WPhase.processing j)) :
      Step s { s with workers := s.workers.set w WPhase.toRegister,
                      processed := s.processed ++ [j] }

/-- Reachability under interleaved execution. -/
def Reaches : PoolSys → PoolSys → Prop := Relation.ReflTransGen Step

/-- The state right after `NewDispatcher` returns, with the caller's
jobs already sitting in the job queue: every worker goroutine is at the
top of its loop and nothing has been dispatched yet. -/
def initSystem (maxWorkers : Nat) (jobs : List Nat) : PoolSys :=
  { maxWorkers := maxWorkers
    jobQueue := jobs
    pool := []
    workers := List.replicate maxWorkers WPhase.toRegister
    disp := DPhase.idle
    samples := []
    handedOff := []
    processed := [] }

/-- The job currently held by the dispatch goroutine, if any. -/
def dispPending : DPhase → List Nat
  | DPhase.idle => []
  | DPhase.haveJob j => [j]
  | DPhase.popped j _ => [j]
  | DPhase.sampled j _ => [j]

/-- The job a worker phase is processing, if any. -/
def procJob : WPhase → Option Nat
  | WPhase.processing j => some j
  | _ => none

/-- The jobs currently inside `Process()` across the pool. -/
def procJobs (ws : List WPhase) : List Nat := ws.filterMap procJob

/-- The number of jobs concurrently inside `Process()`. -/
def jobsInsideProcess (s : PoolSys) : Nat := (procJobs s.workers).length

theorem filterMap_cons_toList {α β : Type} (f : α → Option β) (a : α) (l : List α) :
    List.filterMap f (a :: l) = (f a).toList ++ List.filterMap f l := by
  rw [List.filterMap_cons]
  cases f a <;> rfl

theorem filterMap_set_perm {α β : Type} [DecidableEq β] (f : α → Option β) :
    ∀ (l : List α) (w : Nat) (a b : α), l[w]? = some a →
      ((l.set w b).filterMap f ++ (f a).toList).Perm (l.filterMap f ++ (f b).toList) := by
  intro l
  induction l with
  | nil => intro w a b h; simp at h
  | cons hd tl ih =>
      intro w a b h
      cases w with
      | zero =>
          have ha : hd = a := by simpa using h
          subst ha
          rw [show (hd :: tl).set 0 b = b :: tl from rfl]
          rw [filterMap_cons_toList, filterMap_cons_toList]
          rw [List.perm_iff_count]
          intro x
          simp only [List.count_append]
          omega
      | succ n =>
          have htl : tl[n]? = some a := by simpa using h
          rw [show (hd :: tl).set (n + 1) b = hd :: tl.set n b from rfl]
          rw [filterMap_cons_toList, filterMap_cons_toList]
          rw [List.append_assoc, List.append_assoc]
          exact List.Perm.append_left _ (ih n a b htl)

/-- The inductive invariant of the dispatcher system: `maxWorkers` and
the number of worker goroutines are fixed; the initial job list splits
into the hand-off trace, the job held by the dispatch loop, and the
queue; and the hand-off trace is, up to the order in which workers
finish, the processed trace plus the jobs currently being processed. -/
structure SysInv (maxW : Nat) (jobs : List Nat) (s : PoolSys) : Prop where
  mw : s.maxWorkers = maxW
  wlen : s.workers.length = maxW
  dispatchedEq : s.handedOff ++ (dispPending s.disp ++ s.jobQueue) = jobs
  handPerm : (s.processed ++ procJobs s.workers).Perm s.handedOff

theorem procJobs_replicate_toRegister (n : Nat) :
    procJobs (List.replicate n WPhase.toRegister) = [] := by
  induction n with
  | zero => rfl
  | succ m ih =>
      rw [show List.replicate (m + 1) WPhase.toRegister
            = WPhase.toRegister :: List.replicate m WPhase.toRegister from rfl]
      simpa [procJobs, filterMap_cons_toList, procJob] using ih

theorem sysInv_init (maxW : Nat) (jobs : List Nat) :
    SysInv maxW jobs (initSystem maxW jobs) := by
  refine ⟨rfl, List.length_replicate maxW WPhase.toRegister, rfl, ?_⟩
  simp [initSystem, procJobs_replicate_toRegister]

theorem sysInv_step (maxW : Nat) (jobs : List Nat) (s t : PoolSys)
    (hs : SysInv maxW jobs s) (hstep : Step s t) : SysInv maxW jobs t := by
  obtain ⟨hmw, hwlen, hdisp, hperm⟩ := hs
  cases hstep with
  | register w hw hcap =>
      refine ⟨hmw, by simpa [List.length_set] using hwlen, hdisp, ?_⟩
      have h := filterMap_set_perm procJob s.workers w WPhase.toRegister WPhase.selecting hw
      simp only [procJob, Option.toList, List.append_nil] at h
      exact ((List.Perm.append_left s.processed h).trans hperm)
  | takeJob j rest hd hq =>
      refine ⟨hmw, hwlen, ?_, hperm⟩
      rw [hd, hq] at hdisp
      simpa [dispPending] using hdisp
  | popWorker j w rest hd hp =>
      refine ⟨hmw, hwlen, ?_, hperm⟩
      rw [hd] at hdisp
      simpa [dispPending] using hdisp
  | sendSample j w hd =>
      refine ⟨hmw, hwlen, ?_, hperm⟩
      rw [hd] at hdisp
      simpa [dispPending] using hdisp
  | handOff j w hd hw =>
      refine ⟨hmw, by simpa [List.length_set] using hwlen, ?_, ?_⟩
      · rw [hd] at hdisp
        simp only [dispPending] at hdisp ⊢
        rw [List.append_assoc]
        simpa using hdisp
      · have h := filterMap_set_perm procJob s.workers w WPhase.selecting (WPhase.processing j) hw
        simp only [procJob, Option.toList, List.append_nil] at h
        have h2 : (s.processed ++ procJobs (s.workers.set w (WPhase.processing j))).Perm
            ((s.processed ++ procJobs s.workers) ++ [j]) := by
          rw [List.append_assoc]
          exact List.Perm.append_left s.processed h
        exact h2.trans (List.Perm.append_right [j] hperm)
  | finish w j hw =>
      refine ⟨hmw, by simpa [List.length_set] using hwlen, hdisp, ?_⟩
      have h := filterMap_set_perm procJob s.workers w (WPhase.processing j) WPhase.toRegister hw
      simp only [procJob, Option.toList, List.append_nil] at h
      have h2 : ((s.processed ++ [j]) ++ procJobs (s.workers.set w WPhase.toRegister)).Perm
          (s.processed ++ procJobs s.workers) := by
        rw [List.append_assoc]
        refine (List.Perm.append_left s.processed ?_)
        exact (List.perm_append_comm).trans h
      exact h2.trans hperm

theorem sysInv_reaches (maxW : Nat) (jobs : List Nat) (s : PoolSys)
    (hr : Reaches (initSystem maxW jobs) s) : SysInv maxW jobs s := by
  induction hr with
  | refl => exact sysInv_init maxW jobs
  | tail _ hstep ih => exact sysInv_step maxW jobs _ _ ih hstep

/-- C1: With `N ≥ 1` configured workers, in every reachable state of
the dispatcher system at most `N` jobs are concurrently inside
`Process()`. -/
theorem at_most_maxWorkers_jobs_in_flight (N : Nat) (jobs : List Nat) (s : PoolSys)
    (hN : 1 ≤ N) (hr : Reaches (initSystem N jobs) s) :
    jobsInsideProcess s ≤ N := by
  have hinv := sysInv_reaches N jobs s hr
  calc jobsInsideProcess s ≤ s.workers.length := List.length_filterMap_le procJob s.workers
    _ = N := hinv.wlen

/-- Witness for `at_most_maxWorkers_jobs_in_flight` at the initial
state with one worker. -/
theorem at_most_maxWorkers_jobs_in_flight_witness :
    jobsInsideProcess (initSystem 1 [0]) ≤ 1 :=
  at_most_maxWorkers_jobs_in_flight 1 [0] (initSystem 1 [0]) (by decide)
    Relation.ReflTransGen.refl

/-- C3: The hand-off trace is always a prefix of the enqueued job list:
the dispatch loop hands jobs to worker channels exactly in the order
they were received from the job queue (positions agree index by index),
with no constraint on which worker receives which job. -/
theorem jobs_handed_off_in_queue_order (N : Nat) (jobs : List Nat) (s : PoolSys)
    (hr : Reaches (initSystem N jobs) s) :
    (∃ tail, s.handedOff ++ tail = jobs) ∧
    (∀ i, i < s.handedOff.length → jobs[i]? = s.handedOff[i]?) := by
  have hinv := sysInv_reaches N jobs s hr
  refine ⟨⟨dispPending s.disp ++ s.jobQueue, hinv.dispatchedEq⟩, ?_⟩
  intro i hi
  rw [← hinv.dispatchedEq, List.getElem?_append]
  rw [if_pos hi]

/-- Witness for `jobs_handed_off_in_queue_order` at the initial state. -/
theorem jobs_handed_off_in_queue_order_witness :
    (∃ tail, (initSystem 2 [7, 8]).handedOff ++ tail = [7, 8]) ∧
    (∀ i, i < (initSystem 2 [7, 8]).handedOff.length →
      [7, 8][i]? = (initSystem 2 [7, 8]).handedOff[i]?) :=
  jobs_handed_off_in_queue_order 2 [7, 8] (initSystem 2 [7, 8])
    Relation.ReflTransGen.refl

/-! ### A complete run of the dispatcher

For the liveness half of the exactly-once property we exhibit, for any
job list, a schedule that drains the queue: worker 0 registers, and
then each job in turn is pulled, dispatched to worker 0, processed and
the worker re-registers. -/

/-- Worker configuration in which worker 0 is registered and selecting
and all others are still at the top of their loop. -/
def readyWorkers (n : Nat) : List WPhase :=
  (List.replicate n WPhase.toRegister).set 0 WPhase.selecting

theorem drainQueue (m : Nat) :
    ∀ (q p h : List Nat) (smp : List Int),
      ∃ smp2 : List Int,
        Reaches
          ⟨m + 1, q, [0], readyWorkers (m + 1), DPhase.idle, smp, h, p⟩
          ⟨m + 1, [], [0], readyWorkers (m + 1), DPhase.idle, smp2, h ++ q, p ++ q⟩ := by
  intro q
  induction q with
  | nil =>
      intro p h smp
      exact ⟨smp, by simpa using Relation.ReflTransGen.refl⟩
  | cons j rest ih =>
      intro p h smp
      have hready : (readyWorkers (m + 1))[0]? = some WPhase.selecting := by
        rw [show readyWorkers (m + 1)
              = WPhase.selecting :: List.replicate m WPhase.toRegister from rfl]
        simp
      obtain ⟨smp2, hrest⟩ := ih (p ++ [j]) (h ++ [j])
        (smp ++ [((m : Int) + 1) - ((0 : Nat) : Int)])
      refine ⟨smp2, ?_⟩
      have hfinal :
          Reaches
            ⟨m + 1, rest, [0], readyWorkers (m + 1), DPhase.idle,
              smp ++ [((m : Int) + 1) - ((0 : Nat) : Int)], h ++ [j], p ++ [j]⟩
            ⟨m + 1, [], [0], readyWorkers (m + 1), DPhase.idle, smp2,
              h ++ j :: rest, p ++ j :: rest⟩ := by
        have hh : (h ++ [j]) ++ rest = h ++ j :: rest := by simp
        have hp : (p ++ [j]) ++ rest = p ++ j :: rest := by simp
        rw [← hh, ← hp]
        exact hrest
      refine Relation.ReflTransGen.head
        (Step.takeJob _ j rest rfl rfl) ?_
      refine Relation.ReflTransGen.head
        (Step.popWorker _ j 0 [] rfl rfl) ?_
      refine Relation.ReflTransGen.head
        (Step.sendSample _ j 0 rfl) ?_
      refine Relation.ReflTransGen.head
        (Step.handOff _ j 0 rfl hready) ?_
      have hproc : ((readyWorkers (m + 1)).set 0 (WPhase.processing j))[0]?
          = some (WPhase.processing j) := by
        rw [show readyWorkers (m + 1)
              = WPhase.selecting :: List.replicate m WPhase.toRegister from rfl]
        simp
      refine Relation.ReflTransGen.head
        (Step.finish _ 0 j hproc) ?_
      have hreg : (((readyWorkers (m + 1)).set 0 (WPhase.processing j)).set 0
          WPhase.toRegister)[0]? = some WPhase.toRegister := by
        rw [show readyWorkers (m + 1)
              = WPhase.selecting :: List.replicate m WPhase.toRegister from rfl]
        simp
      refine Relation.ReflTransGen.head
        (Step.register _ 0 hreg (by simp)) ?_
      have hws : (((readyWorkers (m + 1)).set 0 (WPhase.processing j)).set 0
          WPhase.toRegister).set 0 WPhase.selecting = readyWorkers (m + 1) := by
        rw [List.set_set, List.set_set]
        rfl
      have hsm : ((m + 1 : Nat) : Int) - (([] : List Nat).length : Int)
          = ((m : Int) + 1) - ((0 : Nat) : Int) := by norm_num
      simpa [hws, hsm] using hfinal

theorem initial_register_step (m : Nat) (jobs : List Nat) :
    Step (initSystem (m + 1) jobs)
      ⟨m + 1, jobs, [0], readyWorkers (m + 1), DPhase.idle, [], [], []⟩ := by
  have h := Step.register (initSystem (m + 1) jobs) 0
    (by rw [show (initSystem (m + 1) jobs).workers
            = WPhase.toRegister :: List.replicate m WPhase.toRegister from rfl]; simp)
    (by simp [initSystem])
  simpa [initSystem, readyWorkers] using h

/-- C6: Every enqueued job is processed exactly once.  Safety: in every
reachable state each job occurs in the processed trace at most as often
as it was enqueued — with distinct jobs, at most once — and only
enqueued jobs are ever processed.  Liveness: there is a complete run
reaching a state whose processed trace is exactly the enqueued list, so
each job is eventually processed exactly once. -/
theorem every_job_processed_exactly_once (N : Nat) (jobs : List Nat)
    (hN : 1 ≤ N) (hnd : jobs.Nodup) :
    (∃ s, Reaches (initSystem N jobs) s ∧ s.processed = jobs) ∧
    (∀ s, Reaches (initSystem N jobs) s → ∀ j, s.processed.count j ≤ 1) ∧
    (∀ s, Reaches (initSystem N jobs) s → ∀ j, j ∈ s.processed → j ∈ jobs) := by
  have hcount : ∀ s, Reaches (initSystem N jobs) s →
      ∀ j, s.processed.count j ≤ jobs.count j := by
    intro s hr j
    have hinv := sysInv_reaches N jobs s hr
    have h1 : s.processed.count j + (procJobs s.workers).count j
        = s.handedOff.count j := by
      have := hinv.handPerm.count_eq j
      simpa [List.count_append] using this
    have h2 : s.handedOff.count j ≤ jobs.count j := by
      rw [← hinv.dispatchedEq, List.count_append]
      exact Nat.le_add_right _ _
    omega
  obtain ⟨m, rfl⟩ : ∃ m, N = m + 1 := ⟨N - 1, by omega⟩
  refine ⟨?_, ?_, ?_⟩
  · obtain ⟨smp2, hdrain⟩ := drainQueue m jobs [] [] []
    refine ⟨⟨m + 1, [], [0], readyWorkers (m + 1), DPhase.idle, smp2, jobs, jobs⟩,
      Relation.ReflTransGen.head (initial_register_step m jobs) ?_, rfl⟩
    simpa using hdrain
  · intro s hr j
    have := hcount s hr j
    have hj : jobs.count j ≤ 1 := List.nodup_iff_count_le_one.mp hnd j
    omega
  · intro s hr j hj
    have h1 : 0 < s.processed.count j := List.count_pos_iff.mpr hj
    have h2 := hcount s hr j
    exact List.count_pos_iff.mp (by omega)

/-- Witness for `every_job_processed_exactly_once` with one worker and
two jobs. -/
theorem every_job_processed_exactly_once_witness :
    (∃ s, Reaches (initSystem 1 [4, 5]) s ∧ s.processed = [4, 5]) ∧
    (∀ s, Reaches (initSystem 1 [4, 5]) s → ∀ j, s.processed.count j ≤ 1) ∧
    (∀ s, Reaches (initSystem 1 [4, 5]) s → ∀ j, j ∈ s.processed → j ∈ [4, 5]) :=
  every_job_processed_exactly_once 1 [4, 5] (by decide) (by decide)

/-! ## `Worker.Stop` semantics (C9)

`Stop()` spawns a goroutine that sends on the unbuffered `Quit`
channel, so it returns immediately; the worker observes the signal only
when its `select` picks the `Quit` case.  We model a single worker
together with the pending quit send: the environment (pool consumer and
dispatcher) may accept a registration or deliver a job at any time, and
Go's `select` chooses freely among ready cases, so while the quit send
is pending the worker may still win jobs.  `processedAfterStop` counts
the job cycles completed after `Stop()` was called. -/

/-- Phase of the single worker's loop, including the terminated state
reached by the `return` in the `Quit` case. -/
inductive StopPhase where
  | toRegister : StopPhase
  | selecting : StopPhase
  | processing (job : Nat) : StopPhase
  | halted : StopPhase
deriving DecidableEq, Repr

/-- State of one worker plus the `Stop()` signal. -/
structure WorkerSys where
  phase : StopPhase
  stopCalled : Bool
  quitDelivered : Bool
  processedJobs : List Nat
  processedAfterStop : Nat
deriving DecidableEq, Repr

/-- Interleaving steps for one worker: `Stop()` being invoked, the
registration send completing, the `select` receiving a job or the quit
signal (both possible whenever the worker is selecting and the quit
send is pending — Go's `select` does not prioritise), and a
`job.Process()` call returning. -/
inductive WStep : WorkerSys → WorkerSys → Prop where
  | stopCall (s : WorkerSys) (h : s.stopCalled = false) :
      WStep s { s with stopCalled := true }
  | register (s : WorkerSys) (h : s.phase = StopPhase.toRegister) :
      WStep s { s with phase := StopPhase.selecting }
  | recvJob (s : WorkerSys) (j : Nat) (h : s.phase = StopPhase.selecting) :
      WStep s { s with phase := StopPhase.processing j }
  | recvQuit (s : WorkerSys) (h : s.phase = StopPhase.selecting)
      (hc : s.stopCalled = true) (hq : s.quitDelivered = false) :
      WStep s { s with phase := StopPhase.halted, quitDelivered := true }
  | finishJob (s : WorkerSys) (j : Nat) (h : s.phase = StopPhase.processing j) :
      WStep s { s with phase := StopPhase.toRegister,
                       processedJobs := s.processedJobs ++ [j],
                       processedAfterStop :=
                         s.processedAfterStop + (if s.stopCalled then 1 else 0) }

/-- Reachability for the single-worker system. -/
def WReaches : WorkerSys → WorkerSys → Prop := Relation.ReflTransGen WStep

/-- The worker as created by `newWorker` and started. -/
def workerInit : WorkerSys := ⟨StopPhase.toRegister, false, false, [], 0⟩

theorem worker_two_cycles_after_stop :
    WReaches workerInit ⟨StopPhase.toRegister, true, false, [1, 2], 2⟩ := by
  refine Relation.ReflTransGen.head (WStep.stopCall workerInit rfl) ?_
  refine Relation.ReflTransGen.head (WStep.register _ rfl) ?_
  refine Relation.ReflTransGen.head (WStep.recvJob _ 1 rfl) ?_
  refine Relation.ReflTransGen.head (WStep.finishJob _ 1 rfl) ?_
  refine Relation.ReflTransGen.head (WStep.register _ rfl) ?_
  refine Relation.ReflTransGen.head (WStep.recvJob _ 2 rfl) ?_
  refine Relation.ReflTransGen.head (WStep.finishJob _ 2 rfl) ?_
  exact Relation.ReflTransGen.refl

/-- C9 counterexample: it is not true that a worker whose `Stop()` has
been called completes at most one more registration/job cycle — Go's
`select` does not prioritise the quit signal, so there is an execution
in which the worker completes two full job cycles after `Stop()`. -/
theorem worker_stop_at_most_one_more_cycle_refuted :
    ¬ (∀ s : WorkerSys, WReaches workerInit s → s.processedAfterStop ≤ 1) := by
  intro hall
  have h := hall ⟨StopPhase.toRegister, true, false, [1, 2], 2⟩ worker_two_cycles_after_stop
  exact absurd h (by decide)

/-- C9 (amended): `Worker.Stop()` is non-blocking and non-preemptive —
after `Stop()` the worker may still accept and complete one or more
further registration/job cycles (the select does not bound it to one) —
and once the worker's loop observes the stop signal it is halted for
good: in every later state it is still halted, has processed no further
job, and has not re-registered. -/
theorem worker_halted_never_processes_again :
    (∃ s, WReaches workerInit s ∧ s.stopCalled = true ∧ 2 ≤ s.processedAfterStop) ∧
    (∀ s t : WorkerSys, s.phase = StopPhase.halted → WReaches s t →
      t.phase = StopPhase.halted ∧ t.processedJobs = s.processedJobs) := by
  constructor
  · exact ⟨⟨StopPhase.toRegister, true, false, [1, 2], 2⟩,
      worker_two_cycles_after_stop, rfl, by decide⟩
  · intro s t hp hr
    induction hr with
    | refl => exact ⟨hp, rfl⟩
    | tail hru hstep ih =>
        obtain ⟨ihp, ihjobs⟩ := ih
        cases hstep with
        | stopCall h => exact ⟨ihp, ihjobs⟩
        | register h => rw [ihp] at h; exact absurd h (by decide)
        | recvJob j h => rw [ihp] at h; exact absurd h (by decide)
        | recvQuit h hc hq => rw [ihp] at h; exact absurd h (by decide)
        | finishJob j h => rw [ihp] at h; simp at h

/-- Witness for `worker_halted_never_processes_again` at a concrete
halted state with the empty continuation. -/
theorem worker_halted_never_processes_again_witness :
    (⟨StopPhase.halted, true, true, [], 0⟩ : WorkerSys).phase = StopPhase.halted ∧
    (⟨StopPhase.halted, true, true, [], 0⟩ : WorkerSys).processedJobs =
      (⟨StopPhase.halted, true, true, [], 0⟩ : WorkerSys).processedJobs :=
  worker_halted_never_processes_again.2
    ⟨StopPhase.halted, true, true, [], 0⟩ ⟨StopPhase.halted, true, true, [], 0⟩
    rfl Relation.ReflTransGen.refl

end Workerpool
